import Mathlib

/-!
Shallow embedding of the context-sensitive spell checker (`ex1.py`):
the n-gram language model (`Language_Model`) and the noisy-channel
corrector (`Spell_Checker`).  Strings are modelled as `List Char`
(ASCII fragment of Python's unicode semantics), dictionaries and
`Counter`s as association lists, probabilities as exact rationals,
Python exceptions as `Option` (`none` = raised), and the float value
`-inf` returned by `evaluate_text` as `(⊥ : EReal)`.
-/

set_option maxHeartbeats 1000000

set_option maxRecDepth 4000

abbrev Token : Type := List Char

/-- Python `str.split()` whitespace (ASCII part). -/
def isPySpace (c : Char) : Bool :=
  c = ' ' || c = '\t' || c = '\n' || c = '\r' || c = '\x0b' || c = '\x0c'

/-- Membership in Python's `string.punctuation` (ASCII 33-47, 58-64, 91-96, 123-126). -/
def isPunct (c : Char) : Bool :=
  (33 ≤ c.toNat && c.toNat ≤ 47) || (58 ≤ c.toNat && c.toNat ≤ 64) ||
  (91 ≤ c.toNat && c.toNat ≤ 96) || (123 ≤ c.toNat && c.toNat ≤ 126)

/-- The regex class `\w` = `[a-zA-Z0-9_]` (ASCII). -/
def isWordChar (c : Char) : Bool := c.isAlphanum || c = '_'

/-- Python `str.lower` on the ASCII fragment. -/
def pyLower (c : Char) : Char := c.toLower

/-- Maximal runs of characters satisfying `keep`; the accumulator holds the
current run reversed.  `runsBy isWordChar` is `re.findall(r"\w+", ·)` and
`runsBy (!isPySpace ·)` is `str.split()`. -/
def runsBy (keep : Char → Bool) : List Char → Token → List Token
  | [], acc => if acc = [] then [] else [acc.reverse]
  | c :: cs, acc =>
    if keep c then runsBy keep cs (c :: acc)
    else if acc = [] then runsBy keep cs []
    else acc.reverse :: runsBy keep cs []

/-- Python `str.split()` (split on whitespace runs, dropping empties). -/
def splitWS (l : List Char) : List Token := runsBy (fun c => !(isPySpace c)) l []

/-- Embeds `re.findall(r"\w+", text)`. -/
def wordRuns (l : List Char) : List Token := runsBy isWordChar l []

/-- After `https?://` the regex `\S+` must match at least one character;
consume the maximal non-space run and return the rest. -/
def urlConsume (r : List Char) : Option (List Char) :=
  if r.takeWhile (fun c => !(isPySpace c)) = [] then none
  else some (r.dropWhile (fun c => !(isPySpace c)))

/-- Does the list start with a match of `https?://\S+`?  If so return the
suffix after the match. -/
def urlMatch : List Char → Option (List Char)
  | 'h' :: 't' :: 't' :: 'p' :: ':' :: '/' :: '/' :: r => urlConsume r
  | 'h' :: 't' :: 't' :: 'p' :: 's' :: ':' :: '/' :: '/' :: r => urlConsume r
  | _ => none

/-- Leftmost non-overlapping removal of `https?://\S+` matches, i.e.
`re.sub(r"https?://\S+", "", ·)`.  The fuel argument only bounds the
recursion; every step consumes at least one character, so `fuel = length`
(as used in `dropUrls`) never runs out. -/
def dropUrlsFuel : Nat → List Char → List Char
  | _, [] => []
  | 0, l => l
  | fuel + 1, c :: cs =>
    match urlMatch (c :: cs) with
    | some rest => dropUrlsFuel fuel rest
    | none => c :: dropUrlsFuel fuel cs

def dropUrls (l : List Char) : List Char := dropUrlsFuel l.length l

/-- Embeds `normalize_text` with its default arguments: lowercase, strip URLs,
strip punctuation, strip digits, tokenize on `\w+`, re-join with spaces. -/
def normalize_text (text : List Char) : List Char :=
  let t1 := text.map pyLower
  let t2 := dropUrls t1
  let t3 := t2.filter (fun c => !(isPunct c))
  let t4 := t3.filter (fun c => !(c.isDigit))
  List.intercalate [' '] (wordRuns t4)

/-- Generic dictionary lookup with default (`dict.get(k, d)`). -/
def lookupD {α β : Type} [DecidableEq α] : List (α × β) → α → β → β
  | [], _, d => d
  | (k', v) :: rest, k, d => if k' = k then v else lookupD rest k d

/-- Counter lookup (`Counter[k]`, `dict.get(k, 0)`). -/
def getD0 {α : Type} [DecidableEq α] (m : List (α × Nat)) (k : α) : Nat :=
  lookupD m k 0

/-- Python `k in dict` (key presence). -/
def hasKey {α β : Type} [DecidableEq α] : List (α × β) → α → Bool
  | [], _ => false
  | (k', _) :: rest, k => if k' = k then true else hasKey rest k

/-- Embeds `Counter[k] += d`: add to an existing key or append a fresh one. -/
def bump {α : Type} [DecidableEq α] : List (α × Nat) → α → Nat → List (α × Nat)
  | [], k, d => [(k, d)]
  | (k', v) :: rest, k, d =>
    if k' = k then (k', v + d) :: rest else (k', v) :: bump rest k d

/-- Embeds `defaultdict(Counter)` update: `s[c][t] += d`. -/
def bumpN {α β : Type} [DecidableEq α] [DecidableEq β] :
    List (α × List (β × Nat)) → α → β → Nat → List (α × List (β × Nat))
  | [], c, t, d => [(c, bump [] t d)]
  | (c', m) :: rest, c, t, d =>
    if c' = c then (c', bump m t d) :: rest else (c', m) :: bumpN rest c t d

/-- The inner counter of a `defaultdict(Counter)` (missing key ↦ empty). -/
def getCtx {α β : Type} [DecidableEq α] (s : List (α × List (β × Nat))) (c : α) :
    List (β × Nat) := lookupD s c []

/-- Embeds `sum(counter.values())`. -/
def valsSum {α : Type} (m : List (α × Nat)) : Nat := (m.map Prod.snd).sum

/-- Embeds `set.update` with a single element, keeping first-seen order. -/
def insertIfAbsent {α : Type} [DecidableEq α] (vs : List α) (x : α) : List α :=
  if x ∈ vs then vs else vs ++ [x]

/-- State of `Spell_Checker.Language_Model`. -/
structure LM where
  n : Nat
  chars : Bool
  char_pair : List ((Char × Char) × Nat)
  char_counts : List (Char × Nat)
  model_dict : List (List Token × Nat)
  suggestions : List (List Token × List (Token × Nat))
  freq_tokens : List (Token × Nat)
  token_count : Nat
  vocab : List Token
deriving DecidableEq

/-- Embeds `Language_Model.__init__(n, chars)`. -/
def LM.init (n : Nat) (chars : Bool) : LM :=
  ⟨n, chars, [], [], [], [], [], 0, []⟩

def startTok : Token := ['<', 's', '>']

def endTok : Token := ['<', '/', 's', '>']

/-- The token stream both `build_model` and `evaluate_text` derive from a
text: characters in char mode, `split()` words otherwise. -/
def tokensOfText (chars : Bool) (text : List Char) : List Token :=
  if chars then (normalize_text text).map (fun c => [c])
  else splitWS (normalize_text text)

/-- Embeds `['<s>'] * (n - 1) + tokens + ['</s>']`. -/
def padTokens (n : Nat) (toks : List Token) : List Token :=
  List.replicate (n - 1) startTok ++ toks ++ [endTok]

/-- All length-`n` windows `l[i : i + n]` for `i in range(len(l) - n + 1)`
(the same window set both `build_model` and `evaluate_text` iterate). -/
def ngramWindows (n : Nat) (l : List Token) : List (List Token) :=
  (List.range (l.length + 1 - n)).map (fun i => (l.drop i).take n)

/-- Embeds `ngram[-1]`; the default is unreachable in every call site (windows are
nonempty when `1 ≤ n`). -/
def pyLast (w : List Token) : Token := w.getLastD []

/-- Embeds `Language_Model.build_model`.  `none` models the `IndexError` raised by
`normalized_text[-1]` when the normalized text is empty (the only statement
reached before it, the character loop, is a no-op in that case). -/
def build_model (lm : LM) (text : List Char) : Option LM :=
  let normalized := normalize_text text
  let tokens := tokensOfText lm.chars text
  if h : normalized = [] then none
  else
    let cc1 := normalized.dropLast.foldl (fun m ch => bump m ch 1) lm.char_counts
    let cp := (normalized.zip normalized.tail).foldl (fun m pr => bump m pr 1) lm.char_pair
    let cc := bump cc1 (normalized.getLast h) 1
    let freq := tokens.foldl (fun m t => bump m t 1) lm.freq_tokens
    let tc := valsSum freq
    let voc := (freq.map Prod.fst).foldl (fun vs t => insertIfAbsent vs t) lm.vocab
    let ws := ngramWindows lm.n (padTokens lm.n tokens)
    let md := ws.foldl (fun m w => bump m w 1) lm.model_dict
    let sg := ws.foldl (fun s w => bumpN s w.dropLast (pyLast w) 1) lm.suggestions
    some ⟨lm.n, lm.chars, cp, cc, md, sg, freq, tc, voc⟩

def floorQ : ℚ := 1 / 100000000

/-- Embeds `Language_Model.smooth`.  `none` models the exceptions the source can
raise: `ngram[-1]` on an empty tuple (`IndexError`) and the division by
`context_count + len(vocab)` when that denominator is zero
(`ZeroDivisionError`, e.g. on a freshly initialized model). -/
def smooth (lm : LM) (g : List Token) : Option ℚ :=
  if g = [] then none
  else
    let context := g.dropLast
    let token_count := getD0 lm.model_dict g
    let context_count := valsSum (getCtx lm.suggestions context)
    if context_count + lm.vocab.length = 0 then none
    else some (((token_count : ℚ) + 1) / ((context_count : ℚ) + (lm.vocab.length : ℚ)))

/-- The unsmoothed branch of `evaluate_text`: context-next count over the
context total, `0` when the context total is zero. -/
def rawProb (lm : LM) (g : List Token) : ℚ :=
  let context := g.dropLast
  let token := pyLast g
  let context_count := valsSum (getCtx lm.suggestions context)
  let token_count := getD0 (getCtx lm.suggestions context) token
  if 0 < context_count then (token_count : ℚ) / (context_count : ℚ) else 0

/-- Per-window probability of `evaluate_text`, `sm` being the smoothing flag
computed once for the whole call. -/
def evalWindowProb (lm : LM) (sm : Bool) (g : List Token) : Option ℚ :=
  if sm = false then some (rawProb lm g) else smooth lm g

/-- Run a fallible computation over a list, propagating the first error
(the loop in the source raises at the first failing window). -/
def optMapList {α β : Type} (f : α → Option β) : List α → Option (List β)
  | [] => some []
  | a :: l =>
    match f a with
    | none => none
    | some b =>
      match optMapList f l with
      | none => none
      | some bs => some (b :: bs)

/-- Embeds `log(prob)` if `prob > 0` else `log(1e-8)`: the accumulation step of
`evaluate_text`. -/
noncomputable def logFloor (p : ℚ) : ℝ :=
  if 0 < p then Real.log (p : ℝ) else Real.log (floorQ : ℝ)

/-- Embeds `Language_Model.evaluate_text`.  `none` = a raised exception,
`some ⊥` = the float `-inf` returned on an empty token sequence, and
`some r` (with `r` a real) = the accumulated log-probability. -/
noncomputable def evaluate_text (lm : LM) (text : List Char) : Option EReal :=
  let toks := tokensOfText lm.chars text
  if toks = [] then some ⊥
  else
    let sm := toks.any (fun t => !(hasKey lm.freq_tokens t))
    let ws := ngramWindows lm.n (padTokens lm.n toks)
    match optMapList (evalWindowProb lm sm) ws with
    | none => none
    | some ps => some (((ps.map logFloor).sum : ℝ) : EReal)

/-- The alphabet `'abcdefghijklmnopqrstuvwxyz'`. -/
def letters : List Char :=
  ['a', 'b', 'c', 'd', 'e', 'f', 'g', 'h', 'i', 'j', 'k', 'l', 'm',
   'n', 'o', 'p', 'q', 'r', 's', 't', 'u', 'v', 'w', 'x', 'y', 'z']

/-- Embeds `[(word[:i], word[i:]) for i in range(len(word) + 1)]`. -/
def splitsOf (w : Token) : List (Token × Token) :=
  (List.range (w.length + 1)).map (fun i => (w.take i, w.drop i))

/-- Embeds `[L + R[1:] for L, R in splits if R]`. -/
def deletesOf (w : Token) : List Token :=
  (splitsOf w).filterMap (fun lr =>
    match lr.2 with
    | [] => none
    | _ :: rest => some (lr.1 ++ rest))

/-- Embeds `[L + R[1] + R[0] + R[2:] for L, R in splits if len(R) > 1]`. -/
def transposesOf (w : Token) : List Token :=
  (splitsOf w).filterMap (fun lr =>
    match lr.2 with
    | a :: b :: rest => some (lr.1 ++ b :: a :: rest)
    | _ => none)

/-- Embeds `[L + c + R[1:] for L, R in splits if R for c in letters]`. -/
def replacesOf (w : Token) : List Token :=
  (splitsOf w).bind (fun lr =>
    match lr.2 with
    | [] => []
    | _ :: rest => letters.map (fun c => lr.1 ++ c :: rest))

/-- Embeds `[L + c + R for L, R in splits for c in letters]`. -/
def insertsOf (w : Token) : List Token :=
  (splitsOf w).bind (fun lr => letters.map (fun c => lr.1 ++ c :: lr.2))

/-- Embeds `Spell_Checker.edits1`: `set(deletes + transposes + replaces + inserts)`. -/
def edits1 (w : Token) : Finset Token :=
  (deletesOf w ++ transposesOf w ++ replacesOf w ++ insertsOf w).toFinset

/-- The element set of the `edits2` generator
(`e2 for e1 in edits1(word) for e2 in edits1(e1)`); `known` only consumes
it as a set, so duplicates and order are irrelevant. -/
def edits2set (w : Token) : Finset Token := (edits1 w).biUnion edits1

/-- Embeds `Spell_Checker.known`: filter an iterable of words (modelled by its
element set) to those in the language model's vocabulary. -/
def known (lm : LM) (ws : Finset Token) : Finset Token :=
  ws.filter (fun w => w ∈ lm.vocab)

/-- Python `or` on sets: the left operand unless it is empty. -/
def pyOr (a b : Finset Token) : Finset Token := if a = ∅ then b else a

/-- Embeds `Spell_Checker.get_candidates`:
`known([word]) or known(edits1(word)) or known(edits2(word)) or {word}`. -/
def get_candidates (lm : LM) (word : Token) : Finset Token :=
  pyOr (known lm {word})
    (pyOr (known lm (edits1 word)) (pyOr (known lm (edits2set word)) {word}))

/-- The four confusion-matrix tables, each a 2-character-keyed mapping with
`.get(key, 0.0)` lookup semantics (absent keys read as weight 0). -/
structure ErrTables where
  deletion : (Char × Char) → ℚ
  insertion : (Char × Char) → ℚ
  substitution : (Char × Char) → ℚ
  transposition : (Char × Char) → ℚ

/-- The scan of `deletion_probability`: first index `idx` of the modified
word with `mw[:idx] + mw[idx+1:] == ow`, returning the source's `char_pair`
(`'#' + char` at index 0, else `mw[idx-1] + char`).  `pRev` is the already
scanned prefix, reversed. -/
def delScanGo (ow : Token) : Token → Token → Option (Char × Char)
  | _, [] => none
  | pRev, ch :: tail =>
    if pRev.reverse ++ tail = ow then
      some ((match pRev with | [] => '#' | prev :: _ => prev), ch)
    else delScanGo ow (ch :: pRev) tail

def delScan (mw ow : Token) : Option (Char × Char) := delScanGo ow [] mw

/-- Embeds `Spell_Checker.deletion_probability`. -/
def deletion_probability (et : ErrTables) (lm : LM) (mw ow : Token) : ℚ :=
  if mw.length ≠ ow.length + 1 then 0
  else
    match delScan mw ow with
    | none => 0
    | some pr =>
      let f := getD0 lm.char_pair pr
      if f ≠ 0 then et.deletion pr / (f : ℚ) else 0

/-- The scan of `insertion_probability`: first index `idx` of the original
word with `ow[:idx] + ow[idx+1:] == mw`, with the same `char_pair` shape. -/
def insScanGo (mw : Token) : Token → Token → Option (Char × Char)
  | _, [] => none
  | pRev, ch :: tail =>
    if pRev.reverse ++ tail = mw then
      some ((match pRev with | [] => '#' | prev :: _ => prev), ch)
    else insScanGo mw (ch :: pRev) tail

def insScan (mw ow : Token) : Option (Char × Char) := insScanGo mw [] ow

/-- Embeds `Spell_Checker.insertion_probability`; the length guard is over the
integers (`len(ow) - 1` may be `-1`). -/
def insertion_probability (et : ErrTables) (lm : LM) (mw ow : Token) : ℚ :=
  if (mw.length : ℤ) ≠ (ow.length : ℤ) - 1 then 0
  else
    match insScan mw ow with
    | none => 0
    | some pr =>
      let f := getD0 lm.char_counts pr.1
      if f ≠ 0 then et.insertion pr / (f : ℚ) else 0

/-- The scan of `substitution_probability`: first position where the zipped
words differ, as the pair `(orig_char, mod_char)`. -/
def subScan : Token → Token → Option (Char × Char)
  | mc :: mrest, oc :: orest =>
    if mc ≠ oc then some (oc, mc) else subScan mrest orest
  | _, _ => none

/-- Embeds `Spell_Checker.substitution_probability` (the denominator uses
`char_pair[1]`, the modified character, as in the source). -/
def substitution_probability (et : ErrTables) (lm : LM) (mw ow : Token) : ℚ :=
  if mw.length ≠ ow.length then 0
  else
    match subScan mw ow with
    | none => 0
    | some pr =>
      let f := getD0 lm.char_counts pr.2
      if f ≠ 0 then et.substitution pr / (f : ℚ) else 0

/-- The scan of `transposition_probability`: first `i` with
`ow[i] == mw[i+1]`, `ow[i+1] == mw[i]` and
`ow[:i] + ow[i+2:] == mw[:i] + mw[i+2:]`, returning `ow[i:i+2]`.
Both prefixes are tracked reversed; the words are traversed in lockstep
(callers guarantee equal lengths). -/
def transScanGo : Token → Token → Token → Token → Option (Char × Char)
  | oPrev, mPrev, o1 :: o2 :: otail, m1 :: m2 :: mtail =>
    if o1 = m2 ∧ o2 = m1 ∧ oPrev.reverse ++ otail = mPrev.reverse ++ mtail then
      some (o1, o2)
    else transScanGo (o1 :: oPrev) (m1 :: mPrev) (o2 :: otail) (m2 :: mtail)
  | _, _, _, _ => none

def transScan (mw ow : Token) : Option (Char × Char) := transScanGo [] [] ow mw

/-- Embeds `Spell_Checker.transposition_probability`: falls back to `1e-8` when no
transposable pair is found (unlike the other three estimators). -/
def transposition_probability (et : ErrTables) (lm : LM) (mw ow : Token) : ℚ :=
  if mw.length ≠ ow.length then 0
  else
    match transScan mw ow with
    | none => floorQ
    | some pr =>
      let f := getD0 lm.char_pair pr
      if f ≠ 0 then et.transposition pr / (f : ℚ) else 0

/-- State of `Spell_Checker`: a language model plus optional error tables
(`none` covers the falsy `error_tables` check in the source). -/
structure SC where
  lm : LM
  error_tables : Option ErrTables

/-- Embeds `Spell_Checker.get_first_edit_probability`. -/
def get_first_edit_probability (sc : SC) (cand ow : Token) (alpha : ℚ) : ℚ :=
  match sc.error_tables with
  | none => alpha
  | some et =>
    if cand = ow then alpha
    else
      let pi := if (cand.length : ℤ) = (ow.length : ℤ) - 1 then
        insertion_probability et sc.lm cand ow else 0
      let pd := if cand.length = ow.length + 1 then
        deletion_probability et sc.lm cand ow else 0
      let ps := if cand.length = ow.length then
        substitution_probability et sc.lm cand ow else 0
      let pt := if cand.length = ow.length then
        transposition_probability et sc.lm cand ow else 0
      max (max (max (max pi pd) ps) pt) floorQ

/-- Embeds `Spell_Checker.calculate_distance_2_probability`: the maximum over the
direct probability and, for every `intermediate ∈ edits1(ow)` whose own
`edits1` set contains `cand`, the product of the two single-step
probabilities (the source iterates with duplicates; `max` is unaffected). -/
def calculate_distance_2_probability (sc : SC) (cand ow : Token) (alpha : ℚ) : ℚ :=
  ((edits1 ow).filter (fun m => cand ∈ edits1 m)).fold max
    (get_first_edit_probability sc cand ow alpha)
    (fun m => get_first_edit_probability sc m ow alpha *
      get_first_edit_probability sc cand m alpha)

/-- Embeds `Spell_Checker.compute_error_prob`. -/
def compute_error_prob (sc : SC) (cand ow : Token) (alpha : ℚ) : ℚ :=
  max (get_first_edit_probability sc cand ow alpha)
    (calculate_distance_2_probability sc cand ow alpha)

/-- Embeds `math.exp` applied to a log-likelihood that may be `-inf`. -/
noncomputable def eexp (x : EReal) : ℝ :=
  if x = ⊥ then 0 else Real.exp x.toReal

/-- Embeds `Spell_Checker.compute_candidate_probability`:
`1e-8 * (exp(evaluate_text(context + " " + candidate)) * error_prob)`;
`none` propagates an exception raised by `evaluate_text`. -/
noncomputable def compute_candidate_probability (sc : SC) (cand ow context : Token)
    (alpha : ℚ) : Option ℝ :=
  (evaluate_text sc.lm (context ++ ' ' :: cand)).map
    (fun ll => ((floorQ : ℚ) : ℝ) * (eexp ll * ((compute_error_prob sc cand ow alpha : ℚ) : ℝ)))

/-- Embeds `Spell_Checker.get_correction`: the candidate maximizing the combined
probability.  Python's `max` iterates the candidate set in unspecified hash
order and keeps the first maximal element; the iteration order is modelled
as the sorted order.  The `getD word` default is unreachable (the candidate
set is never empty there). -/
noncomputable def get_correction (sc : SC) (word context : Token) (alpha : ℚ) :
    Option Token :=
  let cands := get_candidates sc.lm word
  if cands = ∅ then some word
  else
    match optMapList
      (fun c => (compute_candidate_probability sc c word context alpha).map
        (fun p => (c, p)))
      (cands.sort (· ≤ ·)) with
    | none => none
    | some scored => some (((scored.argmax Prod.snd).map Prod.fst).getD word)

/-- Embeds `' '.join(tokens)`. -/
def joinSpace (ts : List Token) : Token := List.intercalate [' '] ts

/-- Embeds `[i for i, token in enumerate(tokens) if token not in vocab]`. -/
def oovIndices (lm : LM) (tokens : List Token) : List Nat :=
  (List.range tokens.length).filter (fun i => !(decide (tokens.getD i [] ∈ lm.vocab)))

/-- Embeds `' '.join(tokens[max(0, i - n + 1) : i])`. -/
def oovContext (n : Nat) (tokens : List Token) (i : Nat) : Token :=
  joinSpace ((tokens.drop (i + 1 - n)).take (i - (i + 1 - n)))

/-- The out-of-vocabulary loop of `spell_check`: correct each OOV index in
order; at the first correction that differs from its token, substitute it and
return the joined sentence (`some (some s)`).  `some none` = the loop fell
through; `none` = an exception propagated from `get_correction`. -/
noncomputable def oovLoop (sc : SC) (tokens : List Token) (alpha : ℚ) :
    List Nat → Option (Option Token)
  | [] => some none
  | i :: rest =>
    match get_correction sc (tokens.getD i []) (oovContext sc.lm.n tokens i) alpha with
    | none => none
    | some w =>
      if w ≠ tokens.getD i [] then some (some (joinSpace (tokens.set i w)))
      else oovLoop sc tokens alpha rest

/-- The inner `score_sentence` of `spell_check`. -/
noncomputable def score_sentence (s orig : Token) (ll : EReal) (alpha : ℚ) : ℝ :=
  if s = orig then eexp ll * (alpha : ℝ) else eexp ll * (1 - (alpha : ℝ))

/-- The whole-sentence hypothesis search at the end of `spell_check`: the
original sentence plus every single-position candidate replacement, scored by
`exp(log-likelihood)` times `alpha` (original) or `1 - alpha` (altered);
the sentence with the maximal score wins, earliest first on ties. -/
noncomputable def sentence_search (sc : SC) (tokens : List Token) (alpha : ℚ) :
    Option Token :=
  let orig := joinSpace tokens
  let alts := (List.range tokens.length).bind (fun i =>
    ((get_candidates sc.lm (tokens.getD i [])).sort (· ≤ ·)).filterMap (fun c =>
      if c ≠ tokens.getD i [] then some (joinSpace (tokens.set i c)) else none))
  match optMapList
    (fun s => (evaluate_text sc.lm s).map (fun ll => (score_sentence s orig ll alpha, s)))
    (orig :: alts) with
  | none => none
  | some scored => some (((scored.argmax Prod.fst).map Prod.snd).getD orig)

/-- Embeds `Spell_Checker.spell_check`. -/
noncomputable def spell_check (sc : SC) (text : List Char) (alpha : ℚ) : Option Token :=
  let t := normalize_text text
  let tokens := splitWS t
  if tokens = [] then some t
  else
    if tokens.length < sc.lm.n then
      (optMapList
        (fun tk => if tk ∈ sc.lm.vocab then some tk else get_correction sc tk [] alpha)
        tokens).map joinSpace
    else
      match oovLoop sc tokens alpha (oovIndices sc.lm tokens) with
      | none => none
      | some (some s) => some s
      | some none => sentence_search sc tokens alpha

lemma optMapList_total {α β : Type} (f : α → β) (l : List α) :
    optMapList (fun a => some (f a)) l = some (l.map f) := by
  induction l with
  | nil => rfl
  | cons a l ih => simp [optMapList, ih]

lemma optMapList_ne_none {α β : Type} (f : α → Option β) (l : List α)
    (h : ∀ a ∈ l, f a ≠ none) : optMapList f l ≠ none := by
  induction l with
  | nil => simp [optMapList]
  | cons a l ih =>
    have ha := h a (by simp)
    obtain ⟨b, hb⟩ := Option.ne_none_iff_exists'.1 ha
    have hl := ih (fun x hx => h x (by simp [hx]))
    obtain ⟨bs, hbs⟩ := Option.ne_none_iff_exists'.1 hl
    simp [optMapList, hb, hbs]

lemma evalWindowProb_true (lm : LM) : evalWindowProb lm true = smooth lm := by
  funext g; simp [evalWindowProb]

lemma evalWindowProb_false (lm : LM) (g : List Token) :
    evalWindowProb lm false g = some (rawProb lm g) := by
  simp [evalWindowProb]

/-- C10: `build_model` is not total on empty input: exactly when the text
normalizes to the empty string, it raises (reading `normalized_text[-1]`)
instead of completing as a no-op. -/
theorem build_model_errors_on_empty_normalized (lm : LM) (text : List Char) :
    build_model lm text = none ↔ normalize_text text = [] := by
  by_cases h : normalize_text text = [] <;> simp [build_model, h]

/-- C8: `evaluate_text` returns `-inf` (our `some ⊥`) exactly when the
normalized token sequence is empty; on a non-empty token sequence every
zero window probability is replaced by the `1e-8` floor before `log`, so
the returned value is a (finite) real — never `-inf`. -/
theorem evaluate_text_neg_inf_iff_empty (lm : LM) (text : List Char) :
    evaluate_text lm text = some ⊥ ↔ tokensOfText lm.chars text = [] := by
  by_cases h : tokensOfText lm.chars text = []
  · simp [evaluate_text, h]
  · simp only [evaluate_text, if_neg h]
    constructor
    · intro hcontra
      rcases hm : optMapList
          (evalWindowProb lm
            ((tokensOfText lm.chars text).any fun t => !hasKey lm.freq_tokens t))
          (ngramWindows lm.n (padTokens lm.n (tokensOfText lm.chars text))) with
        _ | ps
      · rw [hm] at hcontra; exact absurd hcontra (by simp)
      · rw [hm] at hcontra
        simp only [Option.some.injEq] at hcontra
        exact absurd hcontra (EReal.coe_ne_bot _)
    · intro hcontra; exact absurd hcontra h

/-- C6 counterexample: on a freshly initialized model (empty vocabulary,
no observed contexts) `smooth` does not return a probability at all — the
denominator `context_count + len(vocab)` is zero and the source raises
`ZeroDivisionError` — so its output is not always in (0, 1]. -/
theorem smooth_fresh_state_div_error :
    smooth (LM.init 3 false) [['a'], ['b'], ['c']] = none := by decide

/-- C6 amended: whenever the denominator `context_count + len(vocab)` is
positive, `smooth` returns exactly `(raw count + 1) / (context total +
vocabulary size)`, which is strictly positive, and is at most 1 whenever
`raw count + 1 ≤ context total + vocabulary size` (as in every trained
state); a zero denominator (fresh model) raises instead. -/
theorem smooth_laplace_formula_bounds (lm : LM) (g : List Token) (hg : g ≠ [])
    (hden : 0 < valsSum (getCtx lm.suggestions g.dropLast) + lm.vocab.length) :
    smooth lm g = some (((getD0 lm.model_dict g : ℚ) + 1) /
        ((valsSum (getCtx lm.suggestions g.dropLast) : ℚ) + (lm.vocab.length : ℚ))) ∧
    0 < ((getD0 lm.model_dict g : ℚ) + 1) /
        ((valsSum (getCtx lm.suggestions g.dropLast) : ℚ) + (lm.vocab.length : ℚ)) ∧
    (getD0 lm.model_dict g + 1 ≤ valsSum (getCtx lm.suggestions g.dropLast) + lm.vocab.length →
      ((getD0 lm.model_dict g : ℚ) + 1) /
        ((valsSum (getCtx lm.suggestions g.dropLast) : ℚ) + (lm.vocab.length : ℚ)) ≤ 1) := by
  have hden' : (0 : ℚ) < (valsSum (getCtx lm.suggestions g.dropLast) : ℚ) + (lm.vocab.length : ℚ) := by
    exact_mod_cast hden
  refine ⟨?_, ?_, ?_⟩
  · simp only [smooth, if_neg hg]
    rw [if_neg (by omega)]
  · apply div_pos _ hden'
    positivity
  · intro hle
    rw [div_le_one hden']
    exact_mod_cast hle

def lmStart : LM := LM.init 2 false

/-- A small trained model: `build_model` on the corpus `"aaaa zzzz"`. -/
def lmEx : LM := (build_model lmStart ("aaaa zzzz").data).getD lmStart

/-- Witness for C6 amended, on the trained model `lmEx` and the bigram
`(<s>, aaaa)`. -/
theorem smooth_laplace_formula_bounds_inst :
    ([startTok, ("aaaa").data] : List Token) ≠ [] ∧
    (0 < valsSum (getCtx lmEx.suggestions [startTok]) + lmEx.vocab.length) ∧
    (getD0 lmEx.model_dict [startTok, ("aaaa").data] + 1 ≤
      valsSum (getCtx lmEx.suggestions [startTok]) + lmEx.vocab.length) ∧
    (smooth lmEx [startTok, ("aaaa").data] = some (((getD0 lmEx.model_dict [startTok, ("aaaa").data] : ℚ) + 1) /
        ((valsSum (getCtx lmEx.suggestions [startTok]) : ℚ) + (lmEx.vocab.length : ℚ))) ∧
      0 < ((getD0 lmEx.model_dict [startTok, ("aaaa").data] : ℚ) + 1) /
        ((valsSum (getCtx lmEx.suggestions [startTok]) : ℚ) + (lmEx.vocab.length : ℚ)) ∧
      (getD0 lmEx.model_dict [startTok, ("aaaa").data] + 1 ≤
          valsSum (getCtx lmEx.suggestions [startTok]) + lmEx.vocab.length →
        ((getD0 lmEx.model_dict [startTok, ("aaaa").data] : ℚ) + 1) /
          ((valsSum (getCtx lmEx.suggestions [startTok]) : ℚ) + (lmEx.vocab.length : ℚ)) ≤ 1)) :=
  ⟨by decide, by decide, by decide,
    smooth_laplace_formula_bounds lmEx [startTok, ("aaaa").data] (by decide) (by decide)⟩

/-- C1: the smoothing decision of `evaluate_text` is taken once, globally:
if some token is missing from `freq_tokens`, every window of the padded
sequence is scored by `smooth`; if every token is present, every window is
scored as the raw relative frequency; either way the result is the sum over
the windows of `log(prob)` (with `log(1e-8)` substituted for zero
probabilities), via `logFloor`. -/
theorem evaluate_text_global_smoothing_spec (lm : LM) (text : List Char)
    (h : tokensOfText lm.chars text ≠ []) :
    ((tokensOfText lm.chars text).any (fun t => !(hasKey lm.freq_tokens t)) = true →
      evaluate_text lm text =
        (optMapList (smooth lm)
          (ngramWindows lm.n (padTokens lm.n (tokensOfText lm.chars text)))).map
          (fun ps => (((ps.map logFloor).sum : ℝ) : EReal))) ∧
    ((tokensOfText lm.chars text).any (fun t => !(hasKey lm.freq_tokens t)) = false →
      evaluate_text lm text =
        some (((((ngramWindows lm.n (padTokens lm.n (tokensOfText lm.chars text))).map
          (fun g => logFloor (rawProb lm g))).sum : ℝ) : EReal))) := by
  constructor
  · intro hsm
    simp only [evaluate_text, if_neg h, hsm, evalWindowProb_true]
    rcases optMapList (smooth lm)
        (ngramWindows lm.n (padTokens lm.n (tokensOfText lm.chars text))) with _ | ps
    · rfl
    · rfl
  · intro hsm
    simp only [evaluate_text, if_neg h, hsm]
    have : optMapList (evalWindowProb lm false)
        (ngramWindows lm.n (padTokens lm.n (tokensOfText lm.chars text))) =
        some ((ngramWindows lm.n (padTokens lm.n (tokensOfText lm.chars text))).map
          (rawProb lm)) := by
      rw [show evalWindowProb lm false = fun g => some (rawProb lm g) from
        funext (evalWindowProb_false lm)]
      exact optMapList_total _ _
    rw [this]
    simp only [List.map_map]
    rfl

/-- Witness for C1 on the trained model `lmEx` and its own corpus (the
no-OOV branch). -/
theorem evaluate_text_global_smoothing_inst :
    tokensOfText lmEx.chars ("aaaa zzzz").data ≠ [] ∧
    (tokensOfText lmEx.chars ("aaaa zzzz").data).any
      (fun t => !(hasKey lmEx.freq_tokens t)) = false ∧
    evaluate_text lmEx ("aaaa zzzz").data =
      some (((((ngramWindows lmEx.n (padTokens lmEx.n (tokensOfText lmEx.chars ("aaaa zzzz").data))).map
        (fun g => logFloor (rawProb lmEx g))).sum : ℝ) : EReal)) :=
  ⟨by decide, by decide,
    (evaluate_text_global_smoothing_spec lmEx ("aaaa zzzz").data (by decide)).2 (by decide)⟩

lemma hasKey_bump_self {α : Type} [DecidableEq α] (m : List (α × Nat)) (k : α) (d : Nat) :
    hasKey (bump m k d) k = true := by
  induction m with
  | nil => simp [bump, hasKey]
  | cons kv rest ih =>
    obtain ⟨k0, v0⟩ := kv
    by_cases h : k0 = k <;> simp [bump, hasKey, h, ih]

lemma hasKey_bump_of {α : Type} [DecidableEq α] (m : List (α × Nat)) (k t : α) (d : Nat)
    (h : hasKey m t = true) : hasKey (bump m k d) t = true := by
  induction m with
  | nil => simp [hasKey] at h
  | cons kv rest ih =>
    obtain ⟨k0, v0⟩ := kv
    by_cases hk : k0 = k
    · by_cases ht : k0 = t <;> simp_all [bump, hasKey]
    · by_cases ht : k0 = t <;> simp_all [bump, hasKey]

lemma hasKey_foldlBump_of {α : Type} [DecidableEq α] (l : List α) (m : List (α × Nat)) (t : α)
    (h : hasKey m t = true) :
    hasKey (l.foldl (fun m x => bump m x 1) m) t = true := by
  induction l generalizing m with
  | nil => exact h
  | cons x xs ih => exact ih _ (hasKey_bump_of m x t 1 h)

lemma hasKey_foldlBump_mem {α : Type} [DecidableEq α] (l : List α) (m : List (α × Nat)) (t : α)
    (h : t ∈ l) :
    hasKey (l.foldl (fun m x => bump m x 1) m) t = true := by
  induction l generalizing m with
  | nil => cases h
  | cons x xs ih =>
    rcases List.mem_cons.1 h with rfl | hmem
    · exact hasKey_foldlBump_of xs _ t (hasKey_bump_self m t 1)
    · exact ih _ hmem

lemma getD0_cons {α : Type} [DecidableEq α] (k0 : α) (v0 : Nat) (rest : List (α × Nat)) (k : α) :
    getD0 ((k0, v0) :: rest) k = if k0 = k then v0 else getD0 rest k := rfl

lemma getD0_bump {α : Type} [DecidableEq α] (m : List (α × Nat)) (k k' : α) (d : Nat) :
    getD0 (bump m k d) k' = getD0 m k' + if k' = k then d else 0 := by
  induction m with
  | nil =>
    by_cases h : k' = k
    · subst h; simp [bump, getD0, lookupD]
    · have h2 : ¬ k = k' := fun hh => h hh.symm
      simp [bump, getD0, lookupD, h, h2]
  | cons kv rest ih =>
    obtain ⟨k0, v0⟩ := kv
    by_cases hk : k0 = k
    · subst hk
      rw [show bump ((k0, v0) :: rest) k0 d = (k0, v0 + d) :: rest from by simp [bump]]
      rw [getD0_cons, getD0_cons]
      by_cases ht : k0 = k'
      · subst ht; simp
      · have h3 : ¬ k' = k0 := fun hh => ht hh.symm
        simp [ht, h3]
    · rw [show bump ((k0, v0) :: rest) k d = (k0, v0) :: bump rest k d from by simp [bump, hk]]
      rw [getD0_cons, getD0_cons, ih]
      by_cases ht : k0 = k'
      · subst ht
        simp [hk]
      · simp [ht]

lemma getD0_foldlBump {α : Type} [DecidableEq α] (l : List α) (m : List (α × Nat)) (k : α) :
    getD0 (l.foldl (fun m x => bump m x 1) m) k =
      getD0 m k + l.countP (fun x => decide (x = k)) := by
  induction l generalizing m with
  | nil => simp
  | cons x xs ih =>
    simp only [List.foldl_cons, ih, getD0_bump, List.countP_cons, decide_eq_true_eq]
    by_cases h : k = x
    · rw [if_pos h, if_pos h.symm]
      omega
    · rw [if_neg h, if_neg (fun hh => h hh.symm)]
      omega

lemma getCtx_cons {α β : Type} [DecidableEq α] (c0 : α) (m0 : List (β × Nat))
    (rest : List (α × List (β × Nat))) (c : α) :
    getCtx ((c0, m0) :: rest) c = if c0 = c then m0 else getCtx rest c := rfl

lemma getCtx_bumpN {α β : Type} [DecidableEq α] [DecidableEq β]
    (s : List (α × List (β × Nat))) (c c' : α) (t : β) (d : Nat) :
    getCtx (bumpN s c t d) c' = if c' = c then bump (getCtx s c) t d else getCtx s c' := by
  induction s with
  | nil =>
    by_cases h : c' = c
    · subst h; simp [bumpN, getCtx, lookupD]
    · have h2 : ¬ c = c' := fun hh => h hh.symm
      simp [bumpN, getCtx, lookupD, h, h2]
  | cons cm rest ih =>
    obtain ⟨c0, m0⟩ := cm
    by_cases hc : c0 = c
    · subst hc
      rw [show bumpN ((c0, m0) :: rest) c0 t d = (c0, bump m0 t d) :: rest from by simp [bumpN]]
      simp only [getCtx_cons]
      by_cases h' : c0 = c'
      · subst h'; simp
      · have h2 : ¬ c' = c0 := fun hh => h' hh.symm
        simp [h', h2]
    · rw [show bumpN ((c0, m0) :: rest) c t d = (c0, m0) :: bumpN rest c t d from by
        simp [bumpN, hc]]
      simp only [getCtx_cons, ih]
      by_cases h' : c0 = c'
      · subst h'
        simp [hc]
      · simp [h', hc]

lemma getD0_getCtx_bumpN {α β : Type} [DecidableEq α] [DecidableEq β]
    (s : List (α × List (β × Nat))) (c c' : α) (t t' : β) (d : Nat) :
    getD0 (getCtx (bumpN s c t d) c') t' =
      getD0 (getCtx s c') t' + if c' = c ∧ t' = t then d else 0 := by
  rw [getCtx_bumpN]
  by_cases hc : c' = c
  · subst hc
    rw [if_pos rfl, getD0_bump]
    by_cases ht : t' = t <;> simp [ht]
  · simp [hc]

lemma getD0_getCtx_foldlBumpN (ws : List (List Token))
    (s : List (List Token × List (Token × Nat))) (ctx : List Token) (tok : Token) :
    getD0 (getCtx (ws.foldl (fun s w => bumpN s w.dropLast (pyLast w) 1) s) ctx) tok =
      getD0 (getCtx s ctx) tok +
        ws.countP (fun w => decide (w.dropLast = ctx ∧ pyLast w = tok)) := by
  induction ws generalizing s with
  | nil => simp
  | cons w ws ih =>
    simp only [List.foldl_cons, ih, getD0_getCtx_bumpN, List.countP_cons, decide_eq_true_eq]
    by_cases h : w.dropLast = ctx ∧ pyLast w = tok
    · have h' : ctx = w.dropLast ∧ tok = pyLast w := ⟨h.1.symm, h.2.symm⟩
      rw [if_pos h', if_pos h]
      omega
    · have h' : ¬ (ctx = w.dropLast ∧ tok = pyLast w) := by
        intro hcon; exact h ⟨hcon.1.symm, hcon.2.symm⟩
      rw [if_neg h', if_neg h]
      omega

lemma mem_insertIfAbsent {α : Type} [DecidableEq α] (vs : List α) (x v : α)
    (h : v ∈ vs) : v ∈ insertIfAbsent vs x := by
  by_cases hx : x ∈ vs <;> simp [insertIfAbsent, hx, h]

lemma mem_foldl_insertIfAbsent {α : Type} [DecidableEq α] (l : List α) (vs : List α) (v : α)
    (h : v ∈ vs) : v ∈ l.foldl (fun vs t => insertIfAbsent vs t) vs := by
  induction l generalizing vs with
  | nil => exact h
  | cons x xs ih => exact ih _ (mem_insertIfAbsent vs x v h)

lemma getD0_charLoop (l : List Char) (hl : l ≠ []) (m : List (Char × Nat)) (c : Char) :
    getD0 (bump (l.dropLast.foldl (fun m ch => bump m ch 1) m) (l.getLast hl) 1) c =
      getD0 m c + l.countP (fun x => decide (x = c)) := by
  rw [getD0_bump, getD0_foldlBump]
  conv_rhs => rw [← List.dropLast_append_getLast hl]
  rw [List.countP_append]
  simp only [List.countP_cons, List.countP_nil, decide_eq_true_eq]
  by_cases h : c = l.getLast hl
  · rw [if_pos h, if_pos h.symm]
    omega
  · rw [if_neg h, if_neg (fun hh => h hh.symm)]
    omega

/-- Count of the window `g` in one build call's padded token stream. -/
def windowCount (n : Nat) (chars : Bool) (text : List Char) (g : List Token) : Nat :=
  (ngramWindows n (padTokens n (tokensOfText chars text))).countP (fun w => decide (w = g))

/-- Count of windows with context `ctx` and next token `tok` in one build
call's padded token stream. -/
def suggCount (n : Nat) (chars : Bool) (text : List Char) (ctx : List Token) (tok : Token) : Nat :=
  (ngramWindows n (padTokens n (tokensOfText chars text))).countP
    (fun w => decide (w.dropLast = ctx ∧ pyLast w = tok))

def tokenCountOf (chars : Bool) (text : List Char) (t : Token) : Nat :=
  (tokensOfText chars text).countP (fun x => decide (x = t))

def charCountOf (text : List Char) (c : Char) : Nat :=
  (normalize_text text).countP (fun x => decide (x = c))

def charPairCountOf (text : List Char) (p : Char × Char) : Nat :=
  ((normalize_text text).zip (normalize_text text).tail).countP (fun x => decide (x = p))

lemma build_model_step (lm lm' : LM) (text : List Char)
    (h : build_model lm text = some lm') :
    lm'.n = lm.n ∧ lm'.chars = lm.chars ∧
    (∀ g, getD0 lm'.model_dict g = getD0 lm.model_dict g + windowCount lm.n lm.chars text g) ∧
    (∀ ctx tok, getD0 (getCtx lm'.suggestions ctx) tok =
      getD0 (getCtx lm.suggestions ctx) tok + suggCount lm.n lm.chars text ctx tok) ∧
    (∀ t, getD0 lm'.freq_tokens t = getD0 lm.freq_tokens t + tokenCountOf lm.chars text t) ∧
    (∀ c, getD0 lm'.char_counts c = getD0 lm.char_counts c + charCountOf text c) ∧
    (∀ p, getD0 lm'.char_pair p = getD0 lm.char_pair p + charPairCountOf text p) ∧
    (∀ v, v ∈ lm.vocab → v ∈ lm'.vocab) ∧
    (∀ t, t ∈ tokensOfText lm.chars text → hasKey lm'.freq_tokens t = true) := by
  by_cases hn : normalize_text text = []
  · simp [build_model, hn] at h
  · simp only [build_model, dif_neg hn, Option.some.injEq] at h
    subst h
    refine ⟨rfl, rfl, ?_, ?_, ?_, ?_, ?_, ?_, ?_⟩
    · intro g
      exact getD0_foldlBump (ngramWindows lm.n (padTokens lm.n (tokensOfText lm.chars text)))
        lm.model_dict g
    · intro ctx tok
      exact getD0_getCtx_foldlBumpN
        (ngramWindows lm.n (padTokens lm.n (tokensOfText lm.chars text))) lm.suggestions ctx tok
    · intro t
      exact getD0_foldlBump (tokensOfText lm.chars text) lm.freq_tokens t
    · intro c
      exact getD0_charLoop (normalize_text text) hn lm.char_counts c
    · intro p
      exact getD0_foldlBump ((normalize_text text).zip (normalize_text text).tail)
        lm.char_pair p
    · intro v hv
      exact mem_foldl_insertIfAbsent _ _ _ hv
    · intro t ht
      exact hasKey_foldlBump_mem _ _ _ ht

/-- C3: after `build_model` on a text with a non-empty token sequence,
every token of that text is present in the token-frequency table, so
`evaluate_text` on the same text takes the raw-frequency branch and returns
a finite value (no exception, never `-inf`, never `+inf`). -/
theorem evaluate_after_build_finite (lm lm' : LM) (text : List Char)
    (hb : build_model lm text = some lm')
    (h : tokensOfText lm.chars text ≠ []) :
    (tokensOfText lm'.chars text).all (fun t => hasKey lm'.freq_tokens t) = true ∧
    evaluate_text lm' text ≠ none ∧
    evaluate_text lm' text ≠ some ⊥ ∧
    evaluate_text lm' text ≠ some ⊤ := by
  obtain ⟨hnn, hch, -, -, -, -, -, -, hkeys⟩ := build_model_step lm lm' text hb
  have htoks : tokensOfText lm'.chars text = tokensOfText lm.chars text := by rw [hch]
  have hall : (tokensOfText lm'.chars text).all (fun t => hasKey lm'.freq_tokens t) = true := by
    rw [htoks, List.all_eq_true]
    intro t ht
    exact hkeys t ht
  have h' : tokensOfText lm'.chars text ≠ [] := by rw [htoks]; exact h
  have hsm : (tokensOfText lm'.chars text).any (fun t => !(hasKey lm'.freq_tokens t)) = false := by
    rw [List.any_eq_false]
    intro t ht
    rw [htoks] at ht
    simp [hkeys t ht]
  have heval : evaluate_text lm' text =
      some (((((ngramWindows lm'.n (padTokens lm'.n (tokensOfText lm'.chars text))).map
        (fun g => logFloor (rawProb lm' g))).sum : ℝ) : EReal)) := by
    simp only [evaluate_text, if_neg h', hsm]
    rw [show evalWindowProb lm' false = fun g => some (rawProb lm' g) from
      funext (evalWindowProb_false lm'), optMapList_total]
    simp only [List.map_map]
    rfl
  refine ⟨hall, ?_, ?_, ?_⟩ <;> rw [heval] <;> simp [EReal.coe_ne_bot, EReal.coe_ne_top]

/-- Witness for C3: the tiny corpus `"aaaa zzzz"` evaluated against itself. -/
theorem evaluate_after_build_finite_inst :
    build_model lmStart ("aaaa zzzz").data = some lmEx ∧
    tokensOfText lmStart.chars ("aaaa zzzz").data ≠ [] ∧
    ((tokensOfText lmEx.chars ("aaaa zzzz").data).all
        (fun t => hasKey lmEx.freq_tokens t) = true ∧
      evaluate_text lmEx ("aaaa zzzz").data ≠ none ∧
      evaluate_text lmEx ("aaaa zzzz").data ≠ some ⊥ ∧
      evaluate_text lmEx ("aaaa zzzz").data ≠ some ⊤) :=
  ⟨by decide, by decide,
    evaluate_after_build_finite lmStart lmEx ("aaaa zzzz").data (by decide) (by decide)⟩

/-- C9: `build_model` only accumulates.  Building on `T1` and then `T2`
leaves every count table equal to its old value plus the counts contributed
by each text's own freshly padded token stream, and the vocabulary only
grows (never resets). -/
theorem build_model_accumulates (lm lm1 lm2 : LM) (t1 t2 : List Char)
    (g ctx : List Token) (tok t v : Token) (c : Char) (p : Char × Char)
    (h1 : build_model lm t1 = some lm1) (h2 : build_model lm1 t2 = some lm2) :
    getD0 lm2.model_dict g = getD0 lm.model_dict g +
      windowCount lm.n lm.chars t1 g + windowCount lm.n lm.chars t2 g ∧
    getD0 (getCtx lm2.suggestions ctx) tok = getD0 (getCtx lm.suggestions ctx) tok +
      suggCount lm.n lm.chars t1 ctx tok + suggCount lm.n lm.chars t2 ctx tok ∧
    getD0 lm2.freq_tokens t = getD0 lm.freq_tokens t +
      tokenCountOf lm.chars t1 t + tokenCountOf lm.chars t2 t ∧
    getD0 lm2.char_counts c = getD0 lm.char_counts c + charCountOf t1 c + charCountOf t2 c ∧
    getD0 lm2.char_pair p = getD0 lm.char_pair p + charPairCountOf t1 p + charPairCountOf t2 p ∧
    (v ∈ lm.vocab → v ∈ lm2.vocab) := by
  obtain ⟨hn1, hch1, hmd1, hsg1, hfq1, hcc1, hcp1, hvoc1, -⟩ := build_model_step lm lm1 t1 h1
  obtain ⟨hn2, hch2, hmd2, hsg2, hfq2, hcc2, hcp2, hvoc2, -⟩ := build_model_step lm1 lm2 t2 h2
  rw [hn1] at hmd2 hsg2
  rw [hch1] at hmd2 hsg2 hfq2
  refine ⟨?_, ?_, ?_, ?_, ?_, ?_⟩
  · rw [hmd2 g, hmd1 g]
  · rw [hsg2 ctx tok, hsg1 ctx tok]
  · rw [hfq2 t, hfq1 t]
  · rw [hcc2 c, hcc1 c]
  · rw [hcp2 p, hcp1 p]
  · intro hv; exact hvoc2 v (hvoc1 v hv)

/-- The model after additionally building `"aaaa bbbb"` on top of `lmEx`. -/
def lmEx2 : LM := (build_model lmEx ("aaaa bbbb").data).getD lmEx

/-- The model after additionally building `"cccc"` on top of `lmEx2`. -/
def lmEx3 : LM := (build_model lmEx2 ("cccc").data).getD lmEx2

/-- Witness for C9: the already-trained `lmEx` is built twice more, and the
accumulation equations are checked on the bigram `(aaaa, zzzz)`, its
context, the token `aaaa`, the character `a`, the pair `(a, z)`, and the
vocabulary member `zzzz` (present before, still present after). -/
theorem build_model_accumulates_inst :
    build_model lmEx ("aaaa bbbb").data = some lmEx2 ∧
    build_model lmEx2 ("cccc").data = some lmEx3 ∧
    ("zzzz").data ∈ lmEx.vocab ∧
    (getD0 lmEx3.model_dict [("aaaa").data, ("zzzz").data] =
        getD0 lmEx.model_dict [("aaaa").data, ("zzzz").data] +
        windowCount lmEx.n lmEx.chars ("aaaa bbbb").data [("aaaa").data, ("zzzz").data] +
        windowCount lmEx.n lmEx.chars ("cccc").data [("aaaa").data, ("zzzz").data] ∧
      getD0 (getCtx lmEx3.suggestions [("aaaa").data]) ("zzzz").data =
        getD0 (getCtx lmEx.suggestions [("aaaa").data]) ("zzzz").data +
        suggCount lmEx.n lmEx.chars ("aaaa bbbb").data [("aaaa").data] ("zzzz").data +
        suggCount lmEx.n lmEx.chars ("cccc").data [("aaaa").data] ("zzzz").data ∧
      getD0 lmEx3.freq_tokens ("aaaa").data = getD0 lmEx.freq_tokens ("aaaa").data +
        tokenCountOf lmEx.chars ("aaaa bbbb").data ("aaaa").data +
        tokenCountOf lmEx.chars ("cccc").data ("aaaa").data ∧
      getD0 lmEx3.char_counts 'a' = getD0 lmEx.char_counts 'a' +
        charCountOf ("aaaa bbbb").data 'a' + charCountOf ("cccc").data 'a' ∧
      getD0 lmEx3.char_pair ('a', 'z') = getD0 lmEx.char_pair ('a', 'z') +
        charPairCountOf ("aaaa bbbb").data ('a', 'z') + charPairCountOf ("cccc").data ('a', 'z') ∧
      (("zzzz").data ∈ lmEx.vocab → ("zzzz").data ∈ lmEx3.vocab)) :=
  ⟨by decide, by decide, by decide,
    build_model_accumulates lmEx lmEx2 lmEx3 ("aaaa bbbb").data ("cccc").data
      [("aaaa").data, ("zzzz").data] [("aaaa").data] ("zzzz").data ("aaaa").data ("zzzz").data
      'a' ('a', 'z') (by decide) (by decide)⟩

lemma splitsOf_join (w : Token) (a : Token × Token) (h : a ∈ splitsOf w) :
    a.1 ++ a.2 = w := by
  simp only [splitsOf, List.mem_map, List.mem_range] at h
  obtain ⟨i, -, rfl⟩ := h
  exact List.take_append_drop i w

/-- Every member of `edits1 w` has length at most `|w| + 1` (deletions are
one shorter, transpositions and replacements the same length, insertions
one longer). -/
lemma length_le_of_mem_edits1 (w x : Token) (h : x ∈ edits1 w) :
    x.length ≤ w.length + 1 := by
  simp only [edits1, List.mem_toFinset, List.mem_append] at h
  rcases h with ((hd | ht) | hr) | hi
  · simp only [deletesOf, List.mem_filterMap] at hd
    obtain ⟨a, ha, hfa⟩ := hd
    have hj := splitsOf_join w a ha
    rcases h2 : a.2 with _ | ⟨c, rest⟩ <;> rw [h2] at hfa
    · simp at hfa
    · simp only [Option.some.injEq] at hfa
      subst hfa
      have := congrArg List.length hj
      rw [h2] at this
      simp only [List.length_append, List.length_cons] at this ⊢
      omega
  · simp only [transposesOf, List.mem_filterMap] at ht
    obtain ⟨a, ha, hfa⟩ := ht
    have hj := splitsOf_join w a ha
    rcases h2 : a.2 with _ | ⟨c, rest⟩ <;> rw [h2] at hfa
    · simp at hfa
    · rcases rest with _ | ⟨c2, rest2⟩
      · simp at hfa
      · simp only [Option.some.injEq] at hfa
        subst hfa
        have := congrArg List.length hj
        rw [h2] at this
        simp only [List.length_append, List.length_cons] at this ⊢
        omega
  · simp only [replacesOf, List.mem_bind] at hr
    obtain ⟨a, ha, hfa⟩ := hr
    have hj := splitsOf_join w a ha
    rcases h2 : a.2 with _ | ⟨c, rest⟩ <;> rw [h2] at hfa
    · simp at hfa
    · simp only [List.mem_map] at hfa
      obtain ⟨c', -, hx⟩ := hfa
      subst hx
      have := congrArg List.length hj
      rw [h2] at this
      simp only [List.length_append, List.length_cons] at this ⊢
      omega
  · simp only [insertsOf, List.mem_bind, List.mem_map] at hi
    obtain ⟨a, ha, c, -, hx⟩ := hi
    subst hx
    have := congrArg List.length (splitsOf_join w a ha)
    simp only [List.length_append, List.length_cons] at this ⊢
    omega

/-- C5 counterexample: `edits1` does contain the word itself — replacing a
letter with the same letter reproduces the word (here `"a"` via the
replacement family), which is not an insertion+deletion coincidence. -/
theorem edits1_contains_word_itself : (['a'] : Token) ∈ edits1 ['a'] := by decide

/-- C5 amended: `edits1 w` has no duplicate entries (it is a set), and it
contains `w` itself whenever `w` has a lowercase ASCII letter, via
replacing that letter with itself. -/
theorem edits1_nodup_and_self_mem (w : Token) (c : Char)
    (hc : c ∈ letters) (hmem : c ∈ w) :
    (edits1 w).val.Nodup ∧ w ∈ edits1 w := by
  refine ⟨(edits1 w).nodup, ?_⟩
  obtain ⟨s, t, rfl⟩ := List.append_of_mem hmem
  have hsplit : (s, c :: t) ∈ splitsOf (s ++ c :: t) := by
    simp only [splitsOf, List.mem_map, List.mem_range]
    refine ⟨s.length, by simp; omega, ?_⟩
    rw [List.take_left, List.drop_left]
  have hrep : (s ++ c :: t) ∈ replacesOf (s ++ c :: t) := by
    simp only [replacesOf, List.mem_bind]
    exact ⟨(s, c :: t), hsplit, by simp only []; exact List.mem_map.mpr ⟨c, hc, rfl⟩⟩
  simp only [edits1, List.mem_toFinset, List.mem_append]
  exact Or.inl (Or.inr hrep)

/-- C2: `get_candidates` is the cascading fallback
`known({w}) or known(edits1 w) or known(edits2 w) or {w}`, each later stage
tried only when every earlier stage is empty; in particular a vocabulary
word is its own sole candidate. -/
theorem get_candidates_cascade_spec (lm : LM) (w : Token) :
    (w ∈ lm.vocab → get_candidates lm w = {w}) ∧
    (w ∉ lm.vocab → known lm (edits1 w) ≠ ∅ →
      get_candidates lm w = known lm (edits1 w)) ∧
    (w ∉ lm.vocab → known lm (edits1 w) = ∅ → known lm (edits2set w) ≠ ∅ →
      get_candidates lm w = known lm (edits2set w)) ∧
    (w ∉ lm.vocab → known lm (edits1 w) = ∅ → known lm (edits2set w) = ∅ →
      get_candidates lm w = {w}) := by
  have hk : known lm {w} = if w ∈ lm.vocab then {w} else ∅ := by
    simp [known, Finset.filter_singleton]
  refine ⟨?_, ?_, ?_, ?_⟩
  · intro hv
    rw [get_candidates, hk, if_pos hv, pyOr, if_neg (Finset.singleton_ne_empty w)]
  · intro hv h1
    rw [get_candidates, hk, if_neg hv, pyOr, if_pos rfl, pyOr, if_neg h1]
  · intro hv h1 h2
    rw [get_candidates, hk, if_neg hv, pyOr, if_pos rfl, pyOr, if_pos h1, pyOr, if_neg h2]
  · intro hv h1 h2
    rw [get_candidates, hk, if_neg hv, pyOr, if_pos rfl, pyOr, if_pos h1, pyOr, if_pos h2]

/-- Witness for C2: the vocabulary word `aaaa` of the trained model is its
own sole candidate. -/
theorem get_candidates_cascade_inst :
    ("aaaa").data ∈ lmEx.vocab ∧ get_candidates lmEx ("aaaa").data = {("aaaa").data} :=
  ⟨by decide, (get_candidates_cascade_spec lmEx ("aaaa").data).1 (by decide)⟩

/-- Witness for C5 amended, at the word `"a"` and its letter `'a'`. -/
theorem edits1_nodup_and_self_mem_inst :
    'a' ∈ letters ∧ 'a' ∈ (['a'] : Token) ∧
    ((edits1 ['a']).val.Nodup ∧ (['a'] : Token) ∈ edits1 ['a']) :=
  ⟨by decide, by decide, edits1_nodup_and_self_mem ['a'] 'a' (by decide) (by decide)⟩

/-- C7: each single-operation estimator divides by a frequency only behind
a non-zero guard, returning 0 when the normalizing character or pair
frequency is zero/absent (never a division error, as the functions are
total); and when no valid edit point is found, deletion, insertion and
substitution return 0 while transposition falls back to the floor `1e-8`
(given its length precondition). -/
theorem error_estimators_zero_freq_and_fallback (et : ErrTables) (lm : LM) (mw ow : Token) :
    (∀ pr, delScan mw ow = some pr → getD0 lm.char_pair pr = 0 →
      deletion_probability et lm mw ow = 0) ∧
    (delScan mw ow = none → deletion_probability et lm mw ow = 0) ∧
    (∀ pr, insScan mw ow = some pr → getD0 lm.char_counts pr.1 = 0 →
      insertion_probability et lm mw ow = 0) ∧
    (insScan mw ow = none → insertion_probability et lm mw ow = 0) ∧
    (∀ pr, subScan mw ow = some pr → getD0 lm.char_counts pr.2 = 0 →
      substitution_probability et lm mw ow = 0) ∧
    (subScan mw ow = none → substitution_probability et lm mw ow = 0) ∧
    (∀ pr, transScan mw ow = some pr → getD0 lm.char_pair pr = 0 →
      transposition_probability et lm mw ow = 0) ∧
    (mw.length = ow.length → transScan mw ow = none →
      transposition_probability et lm mw ow = floorQ) := by
  refine ⟨?_, ?_, ?_, ?_, ?_, ?_, ?_, ?_⟩
  · intro pr hscan hfreq
    by_cases hl : mw.length ≠ ow.length + 1
    · simp [deletion_probability, hl]
    · simp [deletion_probability, hl, hscan, hfreq]
  · intro hscan
    by_cases hl : mw.length ≠ ow.length + 1
    · simp [deletion_probability, hl]
    · simp [deletion_probability, hl, hscan]
  · intro pr hscan hfreq
    by_cases hl : (mw.length : ℤ) ≠ (ow.length : ℤ) - 1
    · simp [insertion_probability, hl]
    · simp [insertion_probability, hl, hscan, hfreq]
  · intro hscan
    by_cases hl : (mw.length : ℤ) ≠ (ow.length : ℤ) - 1
    · simp [insertion_probability, hl]
    · simp [insertion_probability, hl, hscan]
  · intro pr hscan hfreq
    by_cases hl : mw.length ≠ ow.length
    · simp [substitution_probability, hl]
    · simp [substitution_probability, hl, hscan, hfreq]
  · intro hscan
    by_cases hl : mw.length ≠ ow.length
    · simp [substitution_probability, hl]
    · simp [substitution_probability, hl, hscan]
  · intro pr hscan hfreq
    by_cases hl : mw.length ≠ ow.length
    · simp [transposition_probability, hl]
    · simp [transposition_probability, hl, hscan, hfreq]
  · intro hl hscan
    simp [transposition_probability, hl, hscan]

/-- Constant error tables for the witness. -/
def etOnes : ErrTables := ⟨fun _ => 1, fun _ => 1, fun _ => 1, fun _ => 1⟩

/-- A model with empty character statistics for the witness. -/
def lmFresh : LM := LM.init 2 false

/-- Witness for C7 on concrete words: zero frequencies send each estimator
to 0, missing edit points send deletion/insertion/substitution to 0 and
transposition to `1e-8`. -/
theorem error_estimators_zero_freq_and_fallback_inst :
    (delScan ("ab").data ("b").data = some ('#', 'a') ∧
      getD0 lmFresh.char_pair ('#', 'a') = 0 ∧
      deletion_probability etOnes lmFresh ("ab").data ("b").data = 0) ∧
    (delScan ("ab").data ("zz").data = none ∧
      deletion_probability etOnes lmFresh ("ab").data ("zz").data = 0) ∧
    (insScan ("a").data ("ab").data = some ('a', 'b') ∧
      getD0 lmFresh.char_counts 'a' = 0 ∧
      insertion_probability etOnes lmFresh ("a").data ("ab").data = 0) ∧
    (insScan ("a").data ("bc").data = none ∧
      insertion_probability etOnes lmFresh ("a").data ("bc").data = 0) ∧
    (subScan ("ab").data ("cb").data = some ('c', 'a') ∧
      getD0 lmFresh.char_counts 'a' = 0 ∧
      substitution_probability etOnes lmFresh ("ab").data ("cb").data = 0) ∧
    (subScan ("ab").data ("ab").data = none ∧
      substitution_probability etOnes lmFresh ("ab").data ("ab").data = 0) ∧
    (transScan ("ba").data ("ab").data = some ('a', 'b') ∧
      getD0 lmFresh.char_pair ('a', 'b') = 0 ∧
      transposition_probability etOnes lmFresh ("ba").data ("ab").data = 0) ∧
    (("ab").data.length = ("ab").data.length ∧ transScan ("ab").data ("ab").data = none ∧
      transposition_probability etOnes lmFresh ("ab").data ("ab").data = floorQ) :=
  ⟨⟨by decide, by decide,
      (error_estimators_zero_freq_and_fallback etOnes lmFresh ("ab").data ("b").data).1
        ('#', 'a') (by decide) (by decide)⟩,
    ⟨by decide,
      (error_estimators_zero_freq_and_fallback etOnes lmFresh ("ab").data ("zz").data).2.1
        (by decide)⟩,
    ⟨by decide, by decide,
      (error_estimators_zero_freq_and_fallback etOnes lmFresh ("a").data ("ab").data).2.2.1
        ('a', 'b') (by decide) (by decide)⟩,
    ⟨by decide,
      (error_estimators_zero_freq_and_fallback etOnes lmFresh ("a").data ("bc").data).2.2.2.1
        (by decide)⟩,
    ⟨by decide, by decide,
      (error_estimators_zero_freq_and_fallback etOnes lmFresh ("ab").data ("cb").data).2.2.2.2.1
        ('c', 'a') (by decide) (by decide)⟩,
    ⟨by decide,
      (error_estimators_zero_freq_and_fallback etOnes lmFresh ("ab").data ("ab").data).2.2.2.2.2.1
        (by decide)⟩,
    ⟨by decide, by decide,
      (error_estimators_zero_freq_and_fallback etOnes lmFresh ("ba").data ("ab").data).2.2.2.2.2.2.1
        ('a', 'b') (by decide) (by decide)⟩,
    ⟨by decide, by decide,
      (error_estimators_zero_freq_and_fallback etOnes lmFresh ("ab").data ("ab").data).2.2.2.2.2.2.2
        (by decide) (by decide)⟩⟩

lemma mem_ngramWindows_ne_nil (n : Nat) (l : List Token) (g : List Token)
    (hn : 1 ≤ n) (hl : n ≤ l.length) (hg : g ∈ ngramWindows n l) : g ≠ [] := by
  simp only [ngramWindows, List.mem_map, List.mem_range] at hg
  obtain ⟨i, hi, rfl⟩ := hg
  intro hcon
  have := congrArg List.length hcon
  simp only [List.length_take, List.length_drop, List.length_nil] at this
  omega

lemma smooth_ne_none (lm : LM) (g : List Token) (hg : g ≠ []) (hv : lm.vocab ≠ []) :
    smooth lm g ≠ none := by
  have hlen : 0 < lm.vocab.length := List.length_pos.mpr hv
  simp only [smooth, if_neg hg]
  rw [if_neg (by omega)]
  simp

lemma padTokens_len (n : Nat) (toks : List Token) (hn : 1 ≤ n) :
    n ≤ (padTokens n toks).length := by
  simp only [padTokens, List.length_append, List.length_replicate, List.length_cons,
    List.length_nil]
  omega

lemma evaluate_text_ne_none (lm : LM) (text : List Char)
    (hn : 1 ≤ lm.n) (hv : lm.vocab ≠ []) : evaluate_text lm text ≠ none := by
  by_cases ht : tokensOfText lm.chars text = []
  · simp [evaluate_text, ht]
  · simp only [evaluate_text, if_neg ht]
    have hm : optMapList
        (evalWindowProb lm
          ((tokensOfText lm.chars text).any fun t => !hasKey lm.freq_tokens t))
        (ngramWindows lm.n (padTokens lm.n (tokensOfText lm.chars text))) ≠ none := by
      apply optMapList_ne_none
      intro g hg
      have hgne : g ≠ [] :=
        mem_ngramWindows_ne_nil lm.n _ g hn (padTokens_len lm.n _ hn) hg
      rcases (tokensOfText lm.chars text).any fun t => !hasKey lm.freq_tokens t with _ | _
      · simp [evalWindowProb]
      · simpa [evalWindowProb] using smooth_ne_none lm g hgne hv
    obtain ⟨ps, hps⟩ := Option.ne_none_iff_exists'.1 hm
    rw [hps]
    simp

lemma compute_candidate_probability_ne_none (sc : SC) (cand ow context : Token) (alpha : ℚ)
    (hn : 1 ≤ sc.lm.n) (hv : sc.lm.vocab ≠ []) :
    compute_candidate_probability sc cand ow context alpha ≠ none := by
  simp only [compute_candidate_probability]
  obtain ⟨ll, hll⟩ := Option.ne_none_iff_exists'.1
    (evaluate_text_ne_none sc.lm (context ++ ' ' :: cand) hn hv)
  rw [hll]
  simp

lemma get_correction_singleton (sc : SC) (word context c : Token) (alpha : ℚ)
    (hc : get_candidates sc.lm word = {c})
    (hn : 1 ≤ sc.lm.n) (hv : sc.lm.vocab ≠ []) :
    get_correction sc word context alpha = some c := by
  obtain ⟨p, hp⟩ := Option.ne_none_iff_exists'.1
    (compute_candidate_probability_ne_none sc c word context alpha hn hv)
  simp only [get_correction, hc, if_neg (Finset.singleton_ne_empty c), Finset.sort_singleton]
  simp only [optMapList, hp]
  rfl

lemma oovLoop_skip (sc : SC) (tokens : List Token) (alpha : ℚ) (i : Nat) (rest : List Nat)
    (h : get_correction sc (tokens.getD i []) (oovContext sc.lm.n tokens i) alpha =
      some (tokens.getD i [])) :
    oovLoop sc tokens alpha (i :: rest) = oovLoop sc tokens alpha rest := by
  simp only [oovLoop]
  rw [h]
  simp

lemma oovLoop_hit (sc : SC) (tokens : List Token) (alpha : ℚ) (j : Nat) (rest : List Nat)
    (c : Token)
    (hj : get_correction sc (tokens.getD j []) (oovContext sc.lm.n tokens j) alpha = some c)
    (hne : c ≠ tokens.getD j []) :
    oovLoop sc tokens alpha (j :: rest) = some (some (joinSpace (tokens.set j c))) := by
  simp only [oovLoop]
  rw [hj]
  simp only [ne_eq, ite_not]
  rw [if_neg (fun hcon => hne hcon)]

lemma oovLoop_run (sc : SC) (tokens : List Token) (alpha : ℚ)
    (pre : List Nat) (j : Nat) (post : List Nat) (c : Token)
    (hpre : ∀ i ∈ pre, get_correction sc (tokens.getD i []) (oovContext sc.lm.n tokens i) alpha =
      some (tokens.getD i []))
    (hj : get_correction sc (tokens.getD j []) (oovContext sc.lm.n tokens j) alpha = some c)
    (hne : c ≠ tokens.getD j []) :
    oovLoop sc tokens alpha (pre ++ j :: post) = some (some (joinSpace (tokens.set j c))) := by
  induction pre with
  | nil => exact oovLoop_hit sc tokens alpha j post c hj hne
  | cons i pre ih =>
    rw [List.cons_append, oovLoop_skip sc tokens alpha i _ (hpre i (by simp))]
    exact ih (fun i' hi' => hpre i' (by simp [hi']))

lemma spell_check_oov_path (sc : SC) (text : List Char) (alpha : ℚ)
    (pre : List Nat) (j : Nat) (post : List Nat) (c : Token)
    (h0 : splitWS (normalize_text text) ≠ [])
    (h1 : ¬ (splitWS (normalize_text text)).length < sc.lm.n)
    (hoov : oovIndices sc.lm (splitWS (normalize_text text)) = pre ++ j :: post)
    (hpre : ∀ i ∈ pre, get_correction sc ((splitWS (normalize_text text)).getD i [])
      (oovContext sc.lm.n (splitWS (normalize_text text)) i) alpha =
      some ((splitWS (normalize_text text)).getD i []))
    (hj : get_correction sc ((splitWS (normalize_text text)).getD j [])
      (oovContext sc.lm.n (splitWS (normalize_text text)) j) alpha = some c)
    (hne : c ≠ (splitWS (normalize_text text)).getD j []) :
    spell_check sc text alpha =
      some (joinSpace ((splitWS (normalize_text text)).set j c)) := by
  simp only [spell_check, if_neg h0, if_neg h1, hoov]
  rw [oovLoop_run sc _ alpha pre j post c hpre hj hne]

/-- C4 amended: when the token count is at least the model order, the scan
visits every out-of-vocabulary index in left-to-right order (not only the
first run): each correction uses the up-to-(order−1) preceding tokens as
context, indices whose correction equals their token are skipped, and at
the first correction that differs, that single token is replaced and the
whole sentence is returned immediately. -/
theorem spell_check_first_improving_oov_replaced (sc : SC) (text : List Char) (alpha : ℚ)
    (pre : List Nat) (j : Nat) (post : List Nat) (c : Token)
    (h0 : splitWS (normalize_text text) ≠ [])
    (h1 : ¬ (splitWS (normalize_text text)).length < sc.lm.n)
    (hoov : oovIndices sc.lm (splitWS (normalize_text text)) = pre ++ j :: post)
    (hpre : ∀ i ∈ pre, get_correction sc ((splitWS (normalize_text text)).getD i [])
      (oovContext sc.lm.n (splitWS (normalize_text text)) i) alpha =
      some ((splitWS (normalize_text text)).getD i []))
    (hj : get_correction sc ((splitWS (normalize_text text)).getD j [])
      (oovContext sc.lm.n (splitWS (normalize_text text)) j) alpha = some c)
    (hne : c ≠ (splitWS (normalize_text text)).getD j []) :
    spell_check sc text alpha =
      some (joinSpace ((splitWS (normalize_text text)).set j c)) :=
  spell_check_oov_path sc text alpha pre j post c h0 h1 hoov hpre hj hne

lemma get_candidates_of_empty_stages (lm : LM) (w : Token)
    (h0 : w ∉ lm.vocab) (h1 : known lm (edits1 w) = ∅) (h2 : known lm (edits2set w) = ∅) :
    get_candidates lm w = {w} := by
  have hk : known lm {w} = ∅ := by
    simp [known, Finset.filter_singleton, h0]
  rw [get_candidates, hk, pyOr, if_pos rfl, pyOr, if_pos h1, pyOr, if_pos h2]

lemma get_candidates_of_e1 (lm : LM) (w : Token)
    (h0 : w ∉ lm.vocab) (h1 : known lm (edits1 w) ≠ ∅) :
    get_candidates lm w = known lm (edits1 w) := by
  have hk : known lm {w} = ∅ := by
    simp [known, Finset.filter_singleton, h0]
  rw [get_candidates, hk, pyOr, if_pos rfl, pyOr, if_neg h1]

/-- The spell checker under test: the trained bigram model, no error
tables. -/
def scEx : SC := ⟨lmEx, none⟩

lemma lmEx_vocab : lmEx.vocab = [("aaaa").data, ("zzzz").data] := by decide

lemma known_edits1_q : known lmEx (edits1 ("q").data) = ∅ := by
  rw [Finset.eq_empty_iff_forall_not_mem]
  intro x hx
  simp only [known, Finset.mem_filter] at hx
  obtain ⟨hx1, hx2⟩ := hx
  have hlen := length_le_of_mem_edits1 _ _ hx1
  rw [lmEx_vocab] at hx2
  simp only [List.mem_cons, List.not_mem_nil, or_false] at hx2
  rcases hx2 with rfl | rfl <;> simp_all

lemma known_edits2_q : known lmEx (edits2set ("q").data) = ∅ := by
  rw [Finset.eq_empty_iff_forall_not_mem]
  intro x hx
  simp only [known, Finset.mem_filter, edits2set, Finset.mem_biUnion] at hx
  obtain ⟨⟨m, hm, hx1⟩, hx2⟩ := hx
  have hm1 := length_le_of_mem_edits1 _ _ hm
  have hm2 := length_le_of_mem_edits1 _ _ hx1
  rw [lmEx_vocab] at hx2
  simp only [List.mem_cons, List.not_mem_nil, or_false] at hx2
  rcases hx2 with rfl | rfl <;> simp_all <;> omega

lemma not_zzzz_mem_edits1_aaab : ("zzzz").data ∉ edits1 ("aaab").data := by
  simp only [edits1, List.mem_toFinset]
  decide

lemma aaaa_mem_edits1_aaab : ("aaaa").data ∈ edits1 ("aaab").data := by
  simp only [edits1, List.mem_toFinset]
  decide

lemma known_edits1_aaab : known lmEx (edits1 ("aaab").data) = {("aaaa").data} := by
  apply Finset.ext
  intro x
  simp only [known, Finset.mem_filter, Finset.mem_singleton]
  constructor
  · rintro ⟨hx1, hx2⟩
    rw [lmEx_vocab] at hx2
    simp only [List.mem_cons, List.not_mem_nil, or_false] at hx2
    rcases hx2 with rfl | rfl
    · rfl
    · exact absurd hx1 not_zzzz_mem_edits1_aaab
  · rintro rfl
    refine ⟨aaaa_mem_edits1_aaab, ?_⟩
    rw [lmEx_vocab]
    simp

lemma gc_q : get_candidates lmEx ("q").data = {("q").data} :=
  get_candidates_of_empty_stages lmEx ("q").data (by decide) known_edits1_q known_edits2_q

lemma gc_aaab : get_candidates lmEx ("aaab").data = {("aaaa").data} := by
  rw [get_candidates_of_e1 lmEx ("aaab").data (by decide)
    (by rw [known_edits1_aaab]; exact Finset.singleton_ne_empty _), known_edits1_aaab]

lemma corr_q (ctx : Token) (alpha : ℚ) :
    get_correction scEx ("q").data ctx alpha = some ("q").data :=
  get_correction_singleton scEx ("q").data ctx ("q").data alpha gc_q (by decide) (by decide)

lemma corr_aaab (ctx : Token) (alpha : ℚ) :
    get_correction scEx ("aaab").data ctx alpha = some ("aaaa").data :=
  get_correction_singleton scEx ("aaab").data ctx ("aaaa").data alpha gc_aaab
    (by decide) (by decide)

/-- C4 counterexample: on `"q zzzz aaab"` the out-of-vocabulary indices are
`0` and `2`, separated by the in-vocabulary token `zzzz` — so index 2 lies
in a *second* OOV run.  The correction of the first run's token `q` equals
`q` (no vocabulary word within two edits), yet `spell_check` goes on to
correct `aaab` (second run) to `aaaa` and returns the modified sentence —
the scan does not stop after the first run of OOV tokens. -/
theorem spell_check_corrects_beyond_first_oov_run :
    oovIndices lmEx (splitWS (normalize_text ("q zzzz aaab").data)) = [0, 2] ∧
    ("zzzz").data ∈ lmEx.vocab ∧
    spell_check scEx ("q zzzz aaab").data (1 / 2) = some (("q zzzz aaaa").data) := by
  refine ⟨by decide, by decide, ?_⟩
  have e0 : (splitWS (normalize_text ("q zzzz aaab").data)).getD 0 [] = ("q").data := by
    decide
  have e2 : (splitWS (normalize_text ("q zzzz aaab").data)).getD 2 [] = ("aaab").data := by
    decide
  have hpre : ∀ i ∈ [0],
      get_correction scEx ((splitWS (normalize_text ("q zzzz aaab").data)).getD i [])
        (oovContext scEx.lm.n (splitWS (normalize_text ("q zzzz aaab").data)) i) (1 / 2) =
        some ((splitWS (normalize_text ("q zzzz aaab").data)).getD i []) := by
    intro i hi
    simp only [List.mem_singleton] at hi
    subst hi
    rw [e0]
    exact corr_q _ _
  have hj : get_correction scEx ((splitWS (normalize_text ("q zzzz aaab").data)).getD 2 [])
      (oovContext scEx.lm.n (splitWS (normalize_text ("q zzzz aaab").data)) 2) (1 / 2) =
      some (("aaaa").data) := by
    rw [e2]
    exact corr_aaab _ _
  have h := spell_check_oov_path scEx ("q zzzz aaab").data (1 / 2) [0] 2 [] ("aaaa").data
    (by decide) (by decide) (by decide) hpre hj (by rw [e2]; decide)
  rw [h]
  have hjoin :
      joinSpace ((splitWS (normalize_text ("q zzzz aaab").data)).set 2 (("aaaa").data)) =
      ("q zzzz aaaa").data := by decide
  rw [hjoin]

/-- Witness for C4 amended, on the same scenario: the first OOV index 0 is
skipped (its correction is itself) and the first improving index 2 yields
the single replacement that is returned. -/
theorem spell_check_first_improving_oov_replaced_inst :
    splitWS (normalize_text ("q zzzz aaab").data) ≠ [] ∧
    oovIndices scEx.lm (splitWS (normalize_text ("q zzzz aaab").data)) = [0] ++ 2 :: [] ∧
    spell_check scEx ("q zzzz aaab").data (1 / 2) =
      some (joinSpace ((splitWS (normalize_text ("q zzzz aaab").data)).set 2 (("aaaa").data))) := by
  refine ⟨by decide, by decide, ?_⟩
  have e0 : (splitWS (normalize_text ("q zzzz aaab").data)).getD 0 [] = ("q").data := by
    decide
  have e2 : (splitWS (normalize_text ("q zzzz aaab").data)).getD 2 [] = ("aaab").data := by
    decide
  have hpre : ∀ i ∈ [0],
      get_correction scEx ((splitWS (normalize_text ("q zzzz aaab").data)).getD i [])
        (oovContext scEx.lm.n (splitWS (normalize_text ("q zzzz aaab").data)) i) (1 / 2) =
        some ((splitWS (normalize_text ("q zzzz aaab").data)).getD i []) := by
    intro i hi
    simp only [List.mem_singleton] at hi
    subst hi
    rw [e0]
    exact corr_q _ _
  have hj : get_correction scEx ((splitWS (normalize_text ("q zzzz aaab").data)).getD 2 [])
      (oovContext scEx.lm.n (splitWS (normalize_text ("q zzzz aaab").data)) 2) (1 / 2) =
      some (("aaaa").data) := by
    rw [e2]
    exact corr_aaab _ _
  exact spell_check_first_improving_oov_replaced scEx ("q zzzz aaab").data (1 / 2) [0] 2 []
    ("aaaa").data (by decide) (by decide) (by decide) hpre hj (by rw [e2]; decide)
